import Mathlib

/-!
# ZipRenamer: verification of the rename rule engine and archive analyzer

Shallow embedding of the batch-rename core of the ZipRenamer repository:

* `applyRenamingRules` — the backend rule evaluator (`lib/renamer.js`);
* `matchScope`, `renameRun` — the two-phase rename engine of the
  `/api/process` route (`server.js`, grouped-rules version);
* `detectDuplicates`, `checkUnicode`, `simulateRenameConflicts`,
  `calculateSeverity` — the archive-analyzer detectors (`src/server.js`).

JavaScript strings are modelled as Lean `String`s (sequences of Unicode
scalar values); `String.toLowerCase`/`toUpperCase` are modelled with
`Char.toLower`/`Char.toUpper`, and the Node `path.posix` helpers
(`basename`, `extname`, `dirname`) are implemented below following the
Node source semantics.
-/

namespace ZipRenamer

/-! ## List-of-characters string primitives -/

/-- Does `pre` occur as a prefix of `l`?  (Model of JS `String.startsWith`
restricted to the character lists.) -/
def lStarts : List Char → List Char → Bool
  | _, [] => true
  | [], _ :: _ => false
  | c :: cs, p :: ps => c = p && lStarts cs ps

/-- Model of JS `s.startsWith(pre)`. -/
def sStarts (s pre : String) : Bool := lStarts s.data pre.data

/-- Model of JS `s.endsWith(suf)`. -/
def sEnds (s suf : String) : Bool := lStarts s.data.reverse suf.data.reverse

/-- `s.slice(n)` over characters. -/
def sDrop (s : String) (n : Nat) : String := String.mk (s.data.drop n)

/-- `s.slice(0, len - n)` over characters. -/
def sDropRight (s : String) (n : Nat) : String :=
  String.mk (s.data.take (s.data.length - n))

/-- Character count of a string. -/
def sLen (s : String) : Nat := s.data.length

/-- Model of JS `String.toLowerCase` (exact on ASCII, the alphabet used by
the repository's fixed tables and tests). -/
def jsToLower (s : String) : String := String.mk (s.data.map Char.toLower)

/-- Model of JS `String.toUpperCase` (exact on ASCII). -/
def jsToUpper (s : String) : String := String.mk (s.data.map Char.toUpper)

/-- Model of JS `name.replace(/\\/g, '/')`: every backslash becomes a slash. -/
def normSlashes (s : String) : String :=
  String.mk (s.data.map (fun c => if c = '\\' then '/' else c))

/-- All-occurrences, leftmost, non-overlapping literal replacement on
character lists; the pattern is `p :: ps` (nonempty).  The fuel argument
(instantiated with the list length, which bounds the number of steps)
keeps the recursion structural. -/
def lReplaceAll (p : Char) (ps repl : List Char) : Nat → List Char → List Char
  | _, [] => []
  | 0, l => l
  | fuel + 1, c :: cs =>
    if lStarts (c :: cs) (p :: ps) then
      repl ++ lReplaceAll p ps repl fuel (cs.drop ps.length)
    else
      c :: lReplaceAll p ps repl fuel cs

/-- Model of JS `newName.replace(new RegExp(escapeRegExp(find), 'g'), repl)`:
an all-occurrences literal substitution (the renamer escapes `find` before
building the pattern).  For an empty `find` the caller's guard skips the
rule, so the empty-pattern case never matters; it is mapped to the identity. -/
def jsReplaceAll (s find repl : String) : String :=
  match find.data with
  | [] => s
  | p :: ps => String.mk (lReplaceAll p ps repl.data s.data.length s.data)

/-- First occurrence of `c` in `l`, scanning from the right: index of the
last occurrence, if any. -/
def lLastIdxOf (c : Char) (l : List Char) : Option Nat :=
  match l.reverse.findIdx? (fun d => d = c) with
  | none => none
  | some j => some (l.length - 1 - j)

/-- JS whitespace class `\s`, restricted to the ASCII whitespace characters. -/
def isWs (c : Char) : Bool := c = ' ' || c = '\t' || c = '\n' || c = '\r'

/-- Model of JS `String.trim`. -/
def jsTrim (s : String) : String :=
  String.mk (((s.data.dropWhile isWs).reverse.dropWhile isWs).reverse)

/-- Collapse every maximal run of characters satisfying `p` to the single
character `r` (models `replace(/[class]+/g, r)`). -/
def collapseRuns (p : Char → Bool) (r : Char) : Bool → List Char → List Char
  | _, [] => []
  | inRun, c :: cs =>
    if p c then
      if inRun then collapseRuns p r true cs
      else r :: collapseRuns p r true cs
    else c :: collapseRuns p r false cs

/-- Model of JS `replace(/([a-z])([A-Z])/g, '$1-$2')`: insert a dash between
every adjacent lowercase/uppercase pair (matches cannot overlap). -/
def kebabDashes : List Char → List Char
  | [] => []
  | [c] => [c]
  | a :: b :: rest =>
    if a.isLower && b.isUpper then a :: '-' :: kebabDashes (b :: rest)
    else a :: kebabDashes (b :: rest)

/-- Left-pad a string with `'0'` to `w` characters (JS `padStart(w, '0')`);
never truncates. -/
def padZero (s : String) (w : Nat) : String :=
  if sLen s < w then String.mk (List.replicate (w - sLen s) '0' ++ s.data) else s

/-! ## Node `path.posix` helpers (as used by the JS sources) -/

/-- Model of Node `path.posix.basename(p)`: trailing slashes ignored,
portion after the last remaining slash. -/
def jsBasename (p : String) : String :=
  let r1 := p.data.reverse.dropWhile (fun c => c = '/')
  String.mk ((r1.takeWhile (fun c => c ≠ '/')).reverse)

/-- Model of Node `path.posix.extname(p)`: the suffix of the basename from
its last dot, except that a dot in position 0 of the basename is not an
extension separator and the basename `".."` has no extension. -/
def jsExtname (p : String) : String :=
  let b := (jsBasename p).data
  match lLastIdxOf '.' b with
  | none => ""
  | some i => if i = 0 ∨ b = ['.', '.'] then "" else String.mk (b.drop i)

/-- Model of Node `path.basename(p, ext)` as the renamer calls it, with
`ext = extname(p)`: the basename with its extension suffix removed. -/
def jsStem (p : String) : String :=
  sDropRight (jsBasename p) (sLen (jsExtname p))

/-- Model of Node `path.posix.dirname(p)` (transcribed from the Node
source: skip trailing slashes, cut at the previous slash of index ≥ 1). -/
def jsDirname (p : String) : String :=
  if p.data = [] then "." else
  let hasRoot := sStarts p "/"
  let r1 := p.data.reverse.dropWhile (fun c => c = '/')
  let rest := r1.dropWhile (fun c => c ≠ '/')
  if rest.length ≤ 1 then (if hasRoot then "/" else ".")
  else if hasRoot ∧ rest.length = 2 then "//"
  else String.mk (rest.tail.reverse)

/-- Split a character list at every `'/'` (model of JS `dir.split('/')`). -/
def splitSl : List Char → List (List Char)
  | [] => [[]]
  | c :: cs =>
    match splitSl cs with
    | [] => [[]]
    | s :: rest => if c = '/' then [] :: s :: rest else (c :: s) :: rest

/-- Join segments with `'/'` (model of JS `parts.join('/')`). -/
def joinSl : List (List Char) → List Char
  | [] => []
  | [s] => s
  | s :: rest => s ++ '/' :: joinSl rest

/-! ## The rule evaluator (`lib/renamer.js`, `applyRenamingRules`) -/

/-- One renaming rule: the tagged variants handled by the backend switch in
`applyRenamingRules`, plus the `pattern` type (handled only by the frontend
previewer, hence an unrecognized no-op for the backend) and a generic
unrecognized type.  Optional JSON fields are `Option`s; the `regexRule`
variant carries the string transformation its user-supplied regular
expression denotes. -/
inductive Rule where
  | replace (find repl : String)
  | regexRule (f : String → String)
  | trim
  | normalizeSpace
  | lowercase
  | uppercase
  | pref (text : String)
  | suff (text : String)
  | removeSpecial
  | kebabCase
  | numbering (start padding : Option Nat) (separator : Option String)
      (position : Option String)
  | pattern (tpl : String)
  | unrecognized (tag : String)

/-- JS `rule.start || 1` / `rule.padding || 1` on an optional number:
a missing field and the falsy value `0` both fall back to `1`. -/
def orOne : Option Nat → Nat
  | none => 1
  | some 0 => 1
  | some (n + 1) => n + 1

/-- JS `rule.separator || '-'`: a missing field and the falsy empty string
both fall back to `"-"`. -/
def orDash : Option String → String
  | none => "-"
  | some s => if s = "" then "-" else s

/-- The character class kept by the `remove_special` rule:
`[^a-zA-Z0-9\s-_]` is deleted, i.e. ASCII letters, digits, whitespace,
`-` and `_` are kept. -/
def keepSpecial (c : Char) : Bool :=
  c.isAlpha || c.isDigit || isWs c || c = '-' || c = '_'

/-- One iteration of the `for (const rule of rules)` switch in
`applyRenamingRules`, acting on the current stem `s` with the caller's
scoped index `index`. -/
def applyRule (index : Nat) (s : String) : Rule → String
  | .replace find repl => if find = "" then s else jsReplaceAll s find repl
  | .regexRule f => f s
  | .trim => jsTrim s
  | .normalizeSpace => String.mk (collapseRuns isWs ' ' false s.data)
  | .lowercase => jsToLower s
  | .uppercase => jsToUpper s
  | .pref text => if text = "" then s else text ++ s
  | .suff text => if text = "" then s else s ++ text
  | .removeSpecial => String.mk (s.data.filter keepSpecial)
  | .kebabCase =>
      jsToLower (String.mk (collapseRuns (fun c => isWs c || c = '_') '-' false
        (kebabDashes s.data)))
  | .numbering start padding separator position =>
      let num := padZero (Nat.repr (index + orOne start)) (orOne padding)
      if position = some "start" then num ++ orDash separator ++ s
      else s ++ orDash separator ++ num
  | .pattern _ => s
  | .unrecognized _ => s

/-- The rule loop of `applyRenamingRules`: rules execute in array order,
each consuming the previous stem. -/
def applyRulesList (index : Nat) (s : String) : List Rule → String
  | [] => s
  | r :: rs => applyRulesList index (applyRule index s r) rs

/-- `applyRenamingRules(originalName, index, rules)` from `lib/renamer.js`:
split `originalName` into stem and extension, fold the rules over the stem,
and re-append the extension unchanged. -/
def applyRenamingRules (originalName : String) (index : Nat)
    (rules : List Rule) : String :=
  applyRulesList index (jsStem originalName) rules ++ jsExtname originalName

/-- Modelled from the spec's numbering row (as amended for the JS falsy
defaults): `n = scopedIndex + start` where `start` defaults to 1 when
unspecified or zero; the decimal string of `n` is left-padded with zeros to
`padding` digits (default 1) and never truncated; `position = start` puts
the number first, otherwise last, joined by the separator (default `"-"`,
also for an empty separator). -/
def numberingSpec (stem : String) (scopedIndex : Nat)
    (start padding : Option Nat) (separator position : Option String) :
    String :=
  let start' : Nat := match start with | none => 1 | some 0 => 1 | some k => k
  let n : Nat := scopedIndex + start'
  let digits : String := Nat.repr n
  let w : Nat := match padding with | none => 1 | some 0 => 1 | some k => k
  let numStr : String :=
    if w ≤ sLen digits then digits
    else String.mk (List.replicate (w - sLen digits) '0') ++ digits
  let sep : String := match separator with
    | none => "-"
    | some t => if t = "" then "-" else t
  if position = some "start" then numStr ++ sep ++ stem
  else stem ++ sep ++ numStr

/-! ## The two-phase rename engine (`/api/process`, grouped-rules server) -/

/-- One container-listing entry as the engine consumes it. -/
structure Entry where
  path : String
  isDirectory : Bool
deriving DecidableEq, Repr

/-- The four recognized scope names; a missing scope (and any unrecognized
scope string, which the JS fall-through also accepts) is `Option.none`
below. -/
inductive Scope where
  | globalScope | folders | extension | folder
deriving DecidableEq, Repr

/-- One client-supplied rule group. -/
structure Group where
  id : String
  scope : Option Scope
  scopeValue : Option String
  exclude : Bool
  rules : List Rule

/-- The `matchScope` helper of the process route: decides whether a rule
group applies to the entry named `name`. -/
def matchScope (name : String) (scope : Option Scope)
    (scopeValue : Option String) (isDirectory : Bool) (exclude : Bool) :
    Bool :=
  match scope with
  | none => true
  | some .globalScope => !isDirectory
  | some .folders => isDirectory
  | some .extension =>
      if isDirectory then false
      else
        let ext := jsExtname name
        let value := scopeValue.getD ""
        let targetExt :=
          if sStarts value "." then value
          else if value ≠ "" then "." ++ value else ""
        let extensionMatches :=
          if targetExt ≠ "" then jsToLower ext = jsToLower targetExt
          else true
        if exclude then !extensionMatches else extensionMatches
  | some .folder =>
      let normPath := normSlashes name
      let value := normSlashes (scopeValue.getD "")
      if value ≠ "" then sStarts normPath value else true

/-- Engine state: the per-group-id counters (`groupCounters`), the folder
rename map in insertion order (`folderRenameMap`), the chronological list
of `(groupId, scopedIndex)` draws made by `groupCounters[group.id]++`
(the trace), and the ordered `(originalPath, outputPath)` pairs. -/
structure EngineState where
  counters : String → Nat
  fmap : List (String × String)
  trace : List (String × Nat)
  output : List (String × String)

/-- JS `Map.set`: overwrite the first binding of the key in place,
otherwise append a new binding. -/
def mapSet (m : List (String × String)) (k v : String) :
    List (String × String) :=
  match m with
  | [] => [(k, v)]
  | (k', v') :: rest =>
      if k' = k then (k, v) :: rest else (k', v') :: mapSet rest k v

/-- The `for … of folderRenameMap.entries()` loop of phase 2: substitute
the first recorded mapping whose old path prefixes `nn` (one substitution,
then `break`); `String.replace(old, new)` rewrites the first occurrence,
which is the prefix itself. -/
def applyFolderMap : List (String × String) → String → String
  | [], nn => nn
  | (o, n) :: rest, nn =>
      if sStarts nn o then n ++ sDrop nn (sLen o) else applyFolderMap rest nn

/-- Strip one trailing slash (`dirPath` computation of phase 1). -/
def dirStrip (s : String) : String :=
  if sEnds s "/" then sDropRight s 1 else s

/-- Is a directory entry top-level, i.e. does its stripped normalized path
contain no `/`? -/
def isTopLevelDirPath (p : String) : Bool :=
  !((dirStrip (normSlashes p)).data.contains '/')

/-- The group fold shared by both phases: for each group with a nonempty
rule list whose scope matches, draw the next scoped index from the shared
counter and transform the working name.  `transform` is phase-specific
(`applyRenamingRules` alone for directories; followed by the
`path.parse` re-basename step for files). -/
def foldGroups (transform : String → Nat → List Rule → String)
    (nn : String) (isDir : Bool) (groups : List Group)
    (counters : String → Nat) (trace : List (String × Nat))
    (working : String) :
    (String → Nat) × List (String × Nat) × String :=
  match groups with
  | [] => (counters, trace, working)
  | g :: gs =>
      if g.rules.isEmpty then foldGroups transform nn isDir gs counters trace working
      else if matchScope nn g.scope g.scopeValue isDir g.exclude then
        let idx := counters g.id
        let counters' := fun s => if s = g.id then idx + 1 else counters s
        foldGroups transform nn isDir gs counters' (trace ++ [(g.id, idx)])
          (transform working idx g.rules)
      else foldGroups transform nn isDir gs counters trace working

/-- Phase 1, one directory entry: top-level directories are added to the
output unrenamed and recorded in no map; other directories have the rule
groups applied to their base segment and are recorded in
`folderRenameMap`. -/
def processDirEntry (groups : List Group) (st : EngineState) (e : Entry) :
    EngineState :=
  let normalizedName := normSlashes e.path
  let dirPath := dirStrip normalizedName
  if !(dirPath.data.contains '/') then
    { st with output := st.output ++ [(e.path, dirPath ++ "/")] }
  else
    let folderName := String.mk ((dirPath.data.reverse.takeWhile
      (fun c => c ≠ '/')).reverse)
    let parentPath := sDropRight dirPath (sLen folderName)
    let r :=
      foldGroups (fun w idx rs => applyRenamingRules w idx rs)
        normalizedName true groups st.counters st.trace folderName
    let oldPath := dirPath ++ "/"
    let newPath := parentPath ++ r.2.2 ++ "/"
    { counters := r.1
      fmap := mapSet st.fmap oldPath newPath
      trace := r.2.1
      output := st.output ++ [(e.path, newPath)] }

/-- The sanitized directory of phase 2:
`dir.split('/').filter(p => p && p !== '..' && p !== '.').join('/')`,
followed by the (unreachable) `'.' → ''` normalization. -/
def safeDirOf (dir : String) : String :=
  let s := String.mk (joinSl ((splitSl dir.data).filter
    (fun p => !(p = []) && !(p = ['.', '.']) && !(p = ['.']))))
  if s = "." then "" else s

/-- Rebuild a full output path from the sanitized directory and the
working name, normalizing backslashes at the end. -/
def rebuildPath (dir working : String) : String :=
  normSlashes
    (if safeDirOf dir ≠ "" then safeDirOf dir ++ "/" ++ working else working)

/-- Phase 2, one file entry: substitute the folder-rename map into the
path, apply matching groups to the base name, and rebuild the path with
the sanitized directory (segments that are empty, `.` or `..` are
dropped). -/
def processFileEntry (groups : List Group) (st : EngineState) (e : Entry) :
    EngineState :=
  let nn := applyFolderMap st.fmap (normSlashes e.path)
  let r :=
    foldGroups (fun w idx rs => jsBasename (applyRenamingRules w idx rs))
      nn false groups st.counters st.trace (jsBasename nn)
  { st with
    counters := r.1
    trace := r.2.1
    output := st.output ++ [(e.path, rebuildPath (jsDirname nn) r.2.2)] }

/-- The initial engine state: every counter starts at zero (the JS loop
initializes `groupCounters[g.id] = 0` for each listed group and the
defensive in-loop check starts any other id at zero as well). -/
def initState : EngineState :=
  { counters := fun _ => 0, fmap := [], trace := [], output := [] }

/-- The whole `/api/process` rename run: phase 1 over the directory
entries in listing order, then phase 2 over the file entries in listing
order, sharing the same counters. -/
def renameRun (entries : List Entry) (groups : List Group) : EngineState :=
  let st1 := (entries.filter (fun e => e.isDirectory)).foldl
    (processDirEntry groups) initState
  (entries.filter (fun e => !e.isDirectory)).foldl
    (processFileEntry groups) st1

/-! ## UTF-8 codec (model of Node `Buffer.from(s, 'utf8').toString('utf8')`)

The encoder/decoder work on code points (`Nat`); Lean strings are
sequences of Unicode scalar values, so every embedded path round-trips. -/

/-- UTF-8 encoding of one code point (1–4 bytes). -/
def utf8EncodeNat (n : Nat) : List Nat :=
  if n < 0x80 then [n]
  else if n < 0x800 then [0xC0 + n / 64, 0x80 + n % 64]
  else if n < 0x10000 then
    [0xE0 + n / 4096, 0x80 + n / 64 % 64, 0x80 + n % 64]
  else
    [0xF0 + n / 262144, 0x80 + n / 4096 % 64, 0x80 + n / 64 % 64,
      0x80 + n % 64]

/-- UTF-8 encoding of a code-point sequence. -/
def utf8Encode : List Nat → List Nat
  | [] => []
  | n :: ns => utf8EncodeNat n ++ utf8Encode ns

/-- Decode the tail of a two-byte UTF-8 sequence with lead byte `b`. -/
def utf8Take1 (b : Nat) : List Nat → Option (Nat × List Nat)
  | b2 :: bs2 =>
      if 0x80 ≤ b2 ∧ b2 < 0xC0 then
        some ((b - 0xC0) * 64 + (b2 - 0x80), bs2)
      else none
  | [] => none

/-- Decode the tail of a three-byte UTF-8 sequence with lead byte `b`. -/
def utf8Take2 (b : Nat) : List Nat → Option (Nat × List Nat)
  | b2 :: b3 :: bs3 =>
      if (0x80 ≤ b2 ∧ b2 < 0xC0) ∧ (0x80 ≤ b3 ∧ b3 < 0xC0) then
        some ((b - 0xE0) * 4096 + (b2 - 0x80) * 64 + (b3 - 0x80), bs3)
      else none
  | _ => none

/-- Decode the tail of a four-byte UTF-8 sequence with lead byte `b`. -/
def utf8Take3 (b : Nat) : List Nat → Option (Nat × List Nat)
  | b2 :: b3 :: b4 :: bs4 =>
      if (0x80 ≤ b2 ∧ b2 < 0xC0) ∧ (0x80 ≤ b3 ∧ b3 < 0xC0) ∧
          (0x80 ≤ b4 ∧ b4 < 0xC0) then
        some ((b - 0xF0) * 262144 + (b2 - 0x80) * 4096 +
          (b3 - 0x80) * 64 + (b4 - 0x80), bs4)
      else none
  | _ => none

/-- Dispatch on the lead byte `b`. -/
def utf8StepCont (b : Nat) (bs : List Nat) : Option (Nat × List Nat) :=
  if b < 0x80 then some (b, bs)
  else if b < 0xC0 then none
  else if b < 0xE0 then utf8Take1 b bs
  else if b < 0xF0 then utf8Take2 b bs
  else if b < 0xF8 then utf8Take3 b bs
  else none

/-- Decode one UTF-8 sequence from the front of a byte list, returning the
code point and the remaining bytes (`none` on an empty list or a malformed
lead/continuation byte). -/
def utf8Step : List Nat → Option (Nat × List Nat)
  | [] => none
  | b :: bs => utf8StepCont b bs

/-- Iterated decoding with fuel (one unit per code point; the byte length
always suffices). -/
def utf8Loop : Nat → List Nat → Option (List Nat)
  | 0, l => if l = [] then some [] else none
  | fuel + 1, l =>
      if l = [] then some []
      else
        match utf8Step l with
        | none => none
        | some nr => (utf8Loop fuel nr.2).map (nr.1 :: ·)

/-- UTF-8 decoding of a byte list back to code points. -/
def utf8Decode (l : List Nat) : Option (List Nat) := utf8Loop l.length l

/-- The code points of a string. -/
def codePoints (s : String) : List Nat := s.data.map Char.toNat

/-- Does the path fail the UTF-8 decode/encode round trip
(`Buffer.from(filename, 'utf8').toString('utf8')` changing it)? -/
def utf8RoundTripFails (p : String) : Bool :=
  utf8Decode (utf8Encode (codePoints p)) ≠ some (codePoints p)

/-- UTF-8 byte length of a string (model of
`Buffer.byteLength(s, 'utf8')`). -/
def byteLen (p : String) : Nat := (utf8Encode (codePoints p)).length

/-! ## The archive analyzer (`src/server.js`) -/

/-- One entry of the analyzer's `files` array. -/
structure AEntry where
  originalName : String
  size : Nat
  isDirectory : Bool
deriving DecidableEq, Repr

/-- The OS names keyed by the analyzer's fixed tables, in `Object.entries`
(insertion) order. -/
inductive OSName where
  | windows | linux | macos
deriving DecidableEq, Repr

/-- One `pathTooLong` warning. -/
structure PathWarning where
  path : String
  length : Nat
  osName : OSName
  limit : Nat
deriving DecidableEq, Repr

/-- `OS_LIMITS` in insertion order. -/
def osLimits : List (OSName × Nat) :=
  [(.windows, 260), (.linux, 4096), (.macos, 1024)]

/-- `checkPathLength`: the UTF-8 byte length of the path is checked
independently against each of the three limits. -/
def checkPathLength (f : AEntry) : List PathWarning :=
  let len := byteLen f.originalName
  osLimits.filterMap fun ol =>
    if ol.2 < len then some ⟨f.originalName, len, ol.1, ol.2⟩ else none

/-- The `INVALID_CHARS.windows` class: `[<>:"|?*\x00-\x1F]`. -/
def winInvalid (c : Char) : Bool :=
  c = '<' || c = '>' || c = ':' || c = '"' || c = '|' || c = '?' || c = '*'
    || c.toNat < 0x20

/-- The `INVALID_CHARS.macos` class: `[:/\x00]`. -/
def macInvalid (c : Char) : Bool := c = ':' || c = '/' || c.toNat = 0

/-- The `INVALID_CHARS.linux` class: `[\x00]`. -/
def linInvalid (c : Char) : Bool := c.toNat = 0

/-- Lowercase hex digit. -/
def hexDigit (n : Nat) : Char :=
  if n < 10 then Char.ofNat ('0'.toNat + n) else Char.ofNat ('a'.toNat + n - 10)

/-- The analyzer's display form of a matched character: control characters
become `\xNN`, others are kept verbatim. -/
def fmtChar (c : Char) : String :=
  if c.toNat < 32 then
    "\\x" ++ String.mk [hexDigit (c.toNat / 16), hexDigit (c.toNat % 16)]
  else String.mk [c]

/-- `[...new Set(xs)]`: deduplication keeping first occurrences (fuel kept
equal to the list length so the recursion is structural). -/
def dedupFirstF : Nat → List String → List String
  | _, [] => []
  | 0, l => l
  | fuel + 1, a :: as => a :: dedupFirstF fuel (as.filter (fun b => b ≠ a))

/-- Deduplication keeping first occurrences. -/
def dedupFirst (l : List String) : List String := dedupFirstF l.length l

/-- `RESERVED_NAMES_WINDOWS`. -/
def reservedNames : List String :=
  ["CON", "PRN", "AUX", "NUL",
   "COM1", "COM2", "COM3", "COM4", "COM5", "COM6", "COM7", "COM8", "COM9",
   "LPT1", "LPT2", "LPT3", "LPT4", "LPT5", "LPT6", "LPT7", "LPT8", "LPT9"]

/-- One `invalidChars` warning. -/
structure InvalidCharWarning where
  path : String
  invalidChars : List String
  osName : OSName
deriving DecidableEq, Repr

/-- `checkInvalidChars`: per-OS forbidden-character matches plus the
Windows reserved-basename check. -/
def checkInvalidChars (f : AEntry) : List InvalidCharWarning :=
  let filename := f.originalName
  let oses : List (OSName × (Char → Bool)) :=
    [(.windows, winInvalid), (.macos, macInvalid), (.linux, linInvalid)]
  let base := oses.filterMap fun op =>
    let ms := filename.data.filter op.2
    if ms ≠ [] then some ⟨filename, dedupFirst (ms.map fmtChar), op.1⟩
    else none
  base ++
    (if reservedNames.contains (jsToUpper (jsStem filename)) then
      [⟨filename, ["RESERVED_NAME"], .windows⟩]
    else [])

/-- The two unicode issue kinds the analyzer can report. -/
inductive UnicodeIssueKind where
  | nfcNfdMismatch | invalidSequence
deriving DecidableEq, Repr

/-- One `unicodeIssues` warning. -/
structure UnicodeWarning where
  path : String
  issue : UnicodeIssueKind
deriving DecidableEq, Repr

/-- `checkUnicode`, parameterized by the Unicode normalization functions
(`String.prototype.normalize('NFC'/'NFD')`, external library behavior).
In Node, `normalize` and `Buffer.from(s,'utf8').toString('utf8')` never
throw on a (well-formed) string, so the `catch` branch that would push an
`invalid_sequence` warning is unreachable: only the NFC/NFD comparison can
produce a warning. -/
def checkUnicode (nfc nfd : String → String) (f : AEntry) :
    List UnicodeWarning :=
  let filename := f.originalName
  if nfc filename ≠ nfd filename ∧ filename ≠ nfc filename then
    [⟨filename, .nfcNfdMismatch⟩]
  else []

/-- One `duplicateNames` warning. -/
structure DuplicateWarning where
  directory : String
  filename : String
  count : Nat
  paths : List String
deriving DecidableEq, Repr

/-- The duplicate-grouping key: parent directory and case-folded base
name, joined by `"::"`. -/
def dupKey (f : AEntry) : String :=
  jsDirname f.originalName ++ "::" ++ jsToLower (jsBasename f.originalName)

/-- Push a value onto the insertion-ordered multimap used by the grouping
loops (`dirMap.get(key).push(...)`). -/
def mapPush (m : List (String × List String)) (k v : String) :
    List (String × List String) :=
  match m with
  | [] => [(k, [v])]
  | (k', vs) :: rest =>
      if k' = k then (k', vs ++ [v]) :: rest
      else (k', vs) :: mapPush rest k v

/-- The grouping pass of `detectDuplicates`: bindings in first-occurrence
key order, each holding the original paths of its group in listing
order. -/
def dupGroups (files : List AEntry) : List (String × List String) :=
  files.foldl
    (fun m f =>
      if f.isDirectory then m else mapPush m (dupKey f) f.originalName)
    []

/-- `key.split('::')[0]`: the prefix before the first `"::"`. -/
def takeBeforeColons : List Char → List Char
  | [] => []
  | ':' :: ':' :: _ => []
  | c :: cs => c :: takeBeforeColons cs

/-- `detectDuplicates`: report every group with more than one collected
path, carrying the first 10 paths. -/
def detectDuplicates (files : List AEntry) : List DuplicateWarning :=
  (dupGroups files).filterMap fun kps =>
    if 1 < kps.2.length then
      let dir := String.mk (takeBeforeColons kps.1.data)
      some ⟨if dir = "" then "/" else dir, jsBasename (kps.2.headD ""),
        kps.2.length, kps.2.take 10⟩
    else none

/-- One `systemFiles` warning. -/
structure SystemFileWarning where
  path : String
  ftype : String
deriving DecidableEq, Repr

/-- Does `needle` occur as a substring of `hay`? -/
def containsSub (hay needle : List Char) : Bool :=
  match hay with
  | [] => lStarts [] needle
  | c :: cs => lStarts (c :: cs) needle || containsSub cs needle

/-- `SYSTEM_FILE_PATTERNS` in insertion order, each as the predicate its
regular expression denotes. -/
def systemFilePatterns : List (String × (String → Bool)) :=
  [("__MACOSX", fun p => containsSub p.data "/__MACOSX/".data),
   (".DS_Store", fun p => sEnds p ".DS_Store"),
   ("Thumbs.db", fun p => sEnds (jsToLower p) "thumbs.db"),
   ("desktop.ini", fun p => sEnds (jsToLower p) "desktop.ini"),
   (".git", fun p => containsSub p.data "/.git/".data)]

/-- `detectSystemFiles`: first matching pattern wins per entry; capped at
20 matches. -/
def detectSystemFiles (files : List AEntry) : List SystemFileWarning :=
  (files.filterMap fun f =>
    (systemFilePatterns.find? (fun tp => tp.2 f.originalName)).map
      (fun tp => ⟨f.originalName, tp.1⟩)).take 20

/-- One `renameConflicts` warning. -/
structure ConflictWarning where
  directory : String
  conflictingFiles : List String
  resultName : String
  count : Nat
  ctype : String
deriving DecidableEq, Repr

/-- Push into the two-level insertion-ordered map of
`simulateRenameConflicts` (directory, then case-folded name). -/
def mapPush2 (m : List (String × List (String × List String)))
    (dir lower base : String) :
    List (String × List (String × List String)) :=
  match m with
  | [] => [(dir, [(lower, [base])])]
  | (d, nm) :: rest =>
      if d = dir then (d, mapPush nm lower base) :: rest
      else (d, nm) :: mapPush2 rest dir lower base

/-- The grouping pass of `simulateRenameConflicts`. -/
def conflictGroups (files : List AEntry) :
    List (String × List (String × List String)) :=
  files.foldl
    (fun m f =>
      if f.isDirectory then m
      else
        mapPush2 m (jsDirname f.originalName)
          (jsToLower (jsBasename f.originalName)) (jsBasename f.originalName))
    []

/-- `simulateRenameConflicts`: a `case_sensitivity` conflict for every
(directory, case-folded name) group with more than one member and more
than one distinct original spelling; capped at 10. -/
def simulateRenameConflicts (files : List AEntry) : List ConflictWarning :=
  ((conflictGroups files).foldr
    (fun dnm acc =>
      (dnm.2.filterMap fun lo =>
        if 1 < lo.2.length ∧ 1 < (dedupFirst lo.2).length then
          some ⟨dnm.1, lo.2, lo.1, lo.2.length, "case_sensitivity"⟩
        else none) ++ acc)
    []).take 10

/-- The analyzer's warnings record. -/
structure Warnings where
  renameConflicts : List ConflictWarning
  pathTooLong : List PathWarning
  duplicateNames : List DuplicateWarning
  invalidChars : List InvalidCharWarning
  unicodeIssues : List UnicodeWarning
  systemFiles : List SystemFileWarning

/-- The severity levels. -/
inductive Severity where
  | critical | high | medium | low | noneLevel
deriving DecidableEq, Repr

/-- `calculateSeverity`: strict first-match priority over the warning
sets. -/
def calculateSeverity (w : Warnings) : Severity :=
  if 0 < w.renameConflicts.length then .critical
  else if 5 < w.pathTooLong.length ∨ 5 < w.invalidChars.length then .high
  else if 0 < w.duplicateNames.length ∨ 0 < w.unicodeIssues.length then
    .medium
  else if 0 < w.systemFiles.length then .low
  else .noneLevel

/-- The warning-assembly part of `analyzeArchive`: the per-file detectors
run over non-directory entries in listing order, the grouping detectors
over the whole list. -/
def buildWarnings (nfc nfd : String → String) (files : List AEntry) :
    Warnings :=
  let nonDirs := files.filter (fun f => !f.isDirectory)
  { renameConflicts := simulateRenameConflicts files
    pathTooLong := (nonDirs.map checkPathLength).flatten
    duplicateNames := detectDuplicates files
    invalidChars := (nonDirs.map checkInvalidChars).flatten
    unicodeIssues := (nonDirs.map (checkUnicode nfc nfd)).flatten
    systemFiles := detectSystemFiles files }

/-! ## Well-formedness predicates used by the identity theorem -/

/-- A safe path segment: nonempty and neither `"."` nor `".."`. -/
def goodSeg (s : List Char) : Bool :=
  !(s = []) && !(s = ['.']) && !(s = ['.', '.'])

/-- No backslash anywhere in the path. -/
def noBackslash (p : String) : Bool := p.data.all (fun c => c ≠ '\\')

/-- A normalized file path: backslash-free and built solely from safe
slash-free segments (this excludes empty paths, absolute paths, empty
segments and `.`/`..` segments). -/
def goodFilePath (p : String) : Bool :=
  noBackslash p && (splitSl p.data).all goodSeg

/-- A normalized entry: directories are backslash-free with a trailing
slash, files are `goodFilePath`s. -/
def goodEntry (e : Entry) : Bool :=
  if e.isDirectory then noBackslash e.path && sEnds e.path "/"
  else goodFilePath e.path

/-- Look a key up in the insertion-ordered grouping map, returning the
collected list (empty when absent). -/
def lookupGroup (m : List (String × List String)) (k : String) :
    List String :=
  match m.find? (fun kv => kv.1 == k) with
  | none => []
  | some kv => kv.2

/-- The run invariant tying the trace to the counters: for every group id,
the scoped indices drawn so far are exactly `0, 1, 2, …` up to the current
counter value. -/
def TraceInv (st : EngineState) : Prop :=
  ∀ gid : String,
    (st.trace.filter (fun ev => ev.1 == gid)).map (fun ev => ev.2) =
      List.range (st.counters gid)

/-! ## Basic helper lemmas -/

theorem lStarts_self_append (x y : List Char) : lStarts (x ++ y) x = true := by
  induction x with
  | nil => cases y <;> rfl
  | cons c cs ih => simp [lStarts, ih]

theorem lStarts_refl (x : List Char) : lStarts x x = true := by
  have h := lStarts_self_append x []
  simpa using h

theorem sEnds_append (t s : String) : sEnds (t ++ s) s = true := by
  show lStarts (t.data ++ s.data).reverse s.data.reverse = true
  rw [List.reverse_append]
  exact lStarts_self_append _ _

/-- A true `lStarts` means the prefix can be split off, and dropping its
length recovers the remainder. -/
theorem lStarts_append_drop (l pre : List Char) (h : lStarts l pre = true) :
    pre ++ l.drop pre.length = l := by
  induction pre generalizing l with
  | nil => simp
  | cons p ps ih =>
      cases l with
      | nil => simp [lStarts] at h
      | cons c cs =>
          simp only [lStarts, Bool.and_eq_true, decide_eq_true_eq] at h
          obtain ⟨rfl, h2⟩ := h
          simpa using ih cs h2

/-! ## UTF-8 round trip (for the unicode detector) -/

theorem utf8EncodeNat_ne_nil (n : Nat) : utf8EncodeNat n ≠ [] := by
  unfold utf8EncodeNat
  split_ifs <;> simp

theorem utf8Step_encodeNat (n : Nat) (h : n < 0x110000) (bs : List Nat) :
    utf8Step (utf8EncodeNat n ++ bs) = some (n, bs) := by
  by_cases h1 : n < 0x80
  · rw [utf8EncodeNat, if_pos h1, List.cons_append, List.nil_append,
      utf8Step, utf8StepCont, if_pos h1]
  · by_cases h2 : n < 0x800
    · rw [utf8EncodeNat, if_neg h1, if_pos h2, List.cons_append,
        List.cons_append, List.nil_append, utf8Step, utf8StepCont,
        if_neg (by omega : ¬0xC0 + n / 64 < 0x80),
        if_neg (by omega : ¬0xC0 + n / 64 < 0xC0),
        if_pos (by omega : 0xC0 + n / 64 < 0xE0), utf8Take1]
      have hv : (0xC0 + n / 64 - 0xC0) * 64 + (0x80 + n % 64 - 0x80) = n := by
        omega
      conv_rhs => rw [← hv]
      exact if_pos (by omega)
    · by_cases h3 : n < 0x10000
      · rw [utf8EncodeNat, if_neg h1, if_neg h2, if_pos h3,
          List.cons_append, List.cons_append, List.cons_append,
          List.nil_append, utf8Step, utf8StepCont,
          if_neg (by omega : ¬0xE0 + n / 4096 < 0x80),
          if_neg (by omega : ¬0xE0 + n / 4096 < 0xC0),
          if_neg (by omega : ¬0xE0 + n / 4096 < 0xE0),
          if_pos (by omega : 0xE0 + n / 4096 < 0xF0), utf8Take2]
        have hv : (0xE0 + n / 4096 - 0xE0) * 4096 +
            (0x80 + n / 64 % 64 - 0x80) * 64 + (0x80 + n % 64 - 0x80) = n := by
          omega
        conv_rhs => rw [← hv]
        exact if_pos (by omega)
      · rw [utf8EncodeNat, if_neg h1, if_neg h2, if_neg h3,
          List.cons_append, List.cons_append, List.cons_append,
          List.cons_append, List.nil_append, utf8Step, utf8StepCont,
          if_neg (by omega : ¬0xF0 + n / 262144 < 0x80),
          if_neg (by omega : ¬0xF0 + n / 262144 < 0xC0),
          if_neg (by omega : ¬0xF0 + n / 262144 < 0xE0),
          if_neg (by omega : ¬0xF0 + n / 262144 < 0xF0),
          if_pos (by omega : 0xF0 + n / 262144 < 0xF8), utf8Take3]
        have hv : (0xF0 + n / 262144 - 0xF0) * 262144 +
            (0x80 + n / 4096 % 64 - 0x80) * 4096 +
            (0x80 + n / 64 % 64 - 0x80) * 64 + (0x80 + n % 64 - 0x80) = n := by
          omega
        conv_rhs => rw [← hv]
        exact if_pos (by omega)

theorem utf8Loop_encode (ns : List Nat) (h : ∀ n ∈ ns, n < 0x110000) :
    ∀ fuel, ns.length ≤ fuel → utf8Loop fuel (utf8Encode ns) = some ns := by
  induction ns with
  | nil =>
      intro fuel _
      cases fuel <;> simp [utf8Encode, utf8Loop]
  | cons n ns ih =>
      intro fuel hf
      cases fuel with
      | zero => simp at hf
      | succ f =>
          rw [utf8Encode, utf8Loop]
          have hne : utf8EncodeNat n ++ utf8Encode ns ≠ [] := by
            simp [utf8EncodeNat_ne_nil n]
          rw [if_neg hne, utf8Step_encodeNat n (h n (by simp))]
          show (utf8Loop f (utf8Encode ns)).map (n :: ·) = some (n :: ns)
          rw [ih (fun m hm => h m (by simp [hm])) f (by simpa using hf)]
          rfl

theorem utf8Encode_length_ge (ns : List Nat) :
    ns.length ≤ (utf8Encode ns).length := by
  induction ns with
  | nil => simp [utf8Encode]
  | cons n ns ih =>
      rw [utf8Encode]
      have h1 : 1 ≤ (utf8EncodeNat n).length :=
        List.length_pos.mpr (utf8EncodeNat_ne_nil n)
      simp only [List.length_append, List.length_cons]
      omega

theorem utf8Decode_utf8Encode (ns : List Nat)
    (h : ∀ n ∈ ns, n < 0x110000) :
    utf8Decode (utf8Encode ns) = some ns := by
  rw [utf8Decode]
  exact utf8Loop_encode ns h _ (utf8Encode_length_ge ns)

theorem char_toNat_lt (c : Char) : c.toNat < 0x110000 := by
  have h := c.valid
  rcases h with h | h
  · exact Nat.lt_trans h (by norm_num)
  · exact h.2

theorem utf8RoundTripFails_eq_false (p : String) :
    utf8RoundTripFails p = false := by
  have h : utf8Decode (utf8Encode (codePoints p)) = some (codePoints p) := by
    refine utf8Decode_utf8Encode _ (fun n hn => ?_)
    simp only [codePoints, List.mem_map] at hn
    obtain ⟨c, _, rfl⟩ := hn
    exact char_toNat_lt c
  simp [utf8RoundTripFails, h]

/-! ## Claim C8: the unicode detector's two flags -/

/-- **C8.**  The unicode detector flags a file path as "nfc/nfd mismatch"
iff the path's NFD form differs from its NFC form and the path does not
already equal its NFC form; and it flags "invalid sequence" iff the path
fails the UTF-8 decode/encode round trip (which, for Unicode-scalar
strings, never happens — matching the code, whose `catch` branch is
unreachable in Node). -/
theorem c8_checkUnicode_flags (nfc nfd : String → String) (f : AEntry) :
    ((⟨f.originalName, UnicodeIssueKind.nfcNfdMismatch⟩ : UnicodeWarning) ∈
        checkUnicode nfc nfd f ↔
      (nfd f.originalName ≠ nfc f.originalName ∧
        f.originalName ≠ nfc f.originalName)) ∧
    ((⟨f.originalName, UnicodeIssueKind.invalidSequence⟩ : UnicodeWarning) ∈
        checkUnicode nfc nfd f ↔
      utf8RoundTripFails f.originalName = true) := by
  simp only [checkUnicode]
  constructor
  · split_ifs with h
    · simp only [List.mem_singleton, true_iff]
      exact ⟨Ne.symm h.1, h.2⟩
    · simp only [List.not_mem_nil, false_iff, not_and]
      intro ha hb
      exact h ⟨Ne.symm ha, hb⟩
  · split_ifs with h
    · simp [utf8RoundTripFails_eq_false]
    · simp [utf8RoundTripFails_eq_false]

/-! ## Claim C10: the backend evaluator never touches the extension -/

theorem sEnds_mk_append (rep : List Char) (d : String) :
    sEnds (String.mk (rep ++ d.data)) d = true := by
  show lStarts (rep ++ d.data).reverse d.data.reverse = true
  rw [List.reverse_append]
  exact lStarts_self_append _ _

/-- **C10.**  For every input name, index and rule list,
`applyRenamingRules` returns the transformed stem with the input's
original extension appended verbatim; in particular the result always
ends with the original extension, and the rule types the backend switch
does not process (`pattern`, or any unrecognized tag) leave the stem
unchanged. -/
theorem c10_extension_kept (name : String) (i : Nat) (rules : List Rule) :
    applyRenamingRules name i rules =
      applyRulesList i (jsStem name) rules ++ jsExtname name ∧
    sEnds (applyRenamingRules name i rules) (jsExtname name) = true ∧
    (∀ (tpl s : String) (rs : List Rule),
      applyRulesList i s (Rule.pattern tpl :: rs) = applyRulesList i s rs) ∧
    (∀ (tag s : String) (rs : List Rule),
      applyRulesList i s (Rule.unrecognized tag :: rs) =
        applyRulesList i s rs) := by
  refine ⟨rfl, ?_, fun tpl s rs => rfl, fun tag s rs => rfl⟩
  show sEnds (applyRulesList i (jsStem name) rules ++ jsExtname name)
    (jsExtname name) = true
  exact sEnds_append _ _

/-! ## Claim C5: the numbering rule -/

/-- **C5** (counterexample).  A numbering rule with `start = 0` is treated
by the code as `start = 1` (JS falsiness), so the claimed
"default only when unspecified" fails: the code produces `"a-1"`, while
the claim's formula `n = scopedIndex + start` yields `"a-0"`. -/
theorem c5_counterexample :
    applyRenamingRules "a" 0 [Rule.numbering (some 0) none none none] =
      "a-1" ∧ ("a-1" : String) ≠ "a-0" :=
  ⟨by decide, by decide⟩

/-- **C5** (amended).  The numbering rule computes
`n = scopedIndex + start` where `start` defaults to 1 when unspecified
*or zero*; the decimal string of `n` is left-padded with zeros to
`padding` digits (default 1, also for zero) and never truncated (the
result ends with the digits and has length `max padding digits`); with
`position = start` the number precedes the stem, otherwise it follows it,
joined by the separator (default `"-"`, also for the empty string). -/
theorem c5_numbering_amended (stem : String) (i : Nat)
    (start padding : Option Nat) (separator position : Option String) :
    applyRule i stem (.numbering start padding separator position) =
      numberingSpec stem i start padding separator position ∧
    sEnds (padZero (Nat.repr (i + orOne start)) (orOne padding))
      (Nat.repr (i + orOne start)) = true ∧
    sLen (padZero (Nat.repr (i + orOne start)) (orOne padding)) =
      max (orOne padding) (sLen (Nat.repr (i + orOne start))) := by
  have e1 : ∀ o : Option Nat,
      (match o with | none => 1 | some 0 => 1 | some k => k) = orOne o := by
    intro o
    cases o with
    | none => rfl
    | some k => cases k <;> rfl
  have e3 : ∀ o : Option String,
      (match o with | none => "-" | some t => if t = "" then "-" else t) =
        orDash o := by
    intro o
    cases o with
    | none => rfl
    | some t => rfl
  have hnum : ∀ (d : String) (w : Nat), padZero d w =
      (if w ≤ sLen d then d
        else String.mk (List.replicate (w - sLen d) '0') ++ d) := by
    intro d w
    unfold padZero
    split_ifs with h1 h2
    · omega
    · rfl
    · rfl
    · omega
  refine ⟨?_, ?_, ?_⟩
  · simp only [applyRule, numberingSpec, e1, e3, ← hnum]
  · unfold padZero
    split_ifs with h
    · exact sEnds_mk_append _ _
    · show lStarts _ _ = true
      exact lStarts_refl _
  · unfold padZero
    split_ifs with h <;>
      simp only [sLen, List.length_append, List.length_replicate] at h ⊢ <;>
      omega

/-! ## Claim C4: extension scope plus lowercase on `a.TXT` -/

/-- **C4** (counterexample).  On `[{path:"a.TXT"}]` with one
extension-scoped (`.txt`) lowercase group the engine outputs `"a.TXT"`,
not the claimed `"a.txt"`: the extension is re-appended verbatim. -/
theorem c4_counterexample :
    (renameRun [⟨"a.TXT", false⟩]
      [⟨"g1", some Scope.extension, some ".txt", false,
        [Rule.lowercase]⟩]).output = [("a.TXT", "a.TXT")] ∧
    ("a.TXT" : String) ≠ "a.txt" :=
  ⟨by decide, by decide⟩

/-- **C4** (amended).  The extension scope does match `a.TXT`
case-insensitively (the group fires and draws scoped index 0), but the
lowercase rule folds only the stem and the original extension is
re-appended verbatim, so the final path is `"a.TXT"`. -/
theorem c4_amended :
    matchScope "a.TXT" (some Scope.extension) (some ".txt") false false =
      true ∧
    (renameRun [⟨"a.TXT", false⟩]
      [⟨"g1", some Scope.extension, some ".txt", false,
        [Rule.lowercase]⟩]).trace = [("g1", 0)] ∧
    (renameRun [⟨"a.TXT", false⟩]
      [⟨"g1", some Scope.extension, some ".txt", false,
        [Rule.lowercase]⟩]).output = [("a.TXT", "a.TXT")] ∧
    applyRenamingRules "a.TXT" 0 [Rule.lowercase] = "a" ++ ".TXT" :=
  ⟨by decide, by decide, by decide, by decide⟩

/-! ## Counterexamples for claims C1, C2, C3, C7 -/

/-- **C1** (counterexample).  A top-level *file* (no parent path segment)
is matched by a global-scoped group and renamed: the engine outputs
`"xa.txt"` for `"a.txt"`, so top-level entries are not exempt from
matching. -/
theorem c1_counterexample :
    ("a.txt".data.contains '/') = false ∧
    (renameRun [⟨"a.txt", false⟩]
      [⟨"g1", some Scope.globalScope, none, false,
        [Rule.pref "x"]⟩]).output = [("a.txt", "xa.txt")] ∧
    ("xa.txt" : String) ≠ "a.txt" :=
  ⟨by decide, by decide, by decide⟩

/-- **C2** (counterexample).  With recorded mappings
`T/A/ → T/new_A/` and `T/A/B/ → T/A/new_B/`, both of which prefix-match
`T/A/B/f.txt`, the engine substitutes the *first-registered* (shorter)
mapping, producing `T/new_A/B/f.txt`, not the longest-mapping result
`T/A/new_B/f.txt` — and the file does not inherit both ancestor
renames. -/
theorem c2_counterexample :
    (renameRun [⟨"T/A/", true⟩, ⟨"T/A/B/", true⟩, ⟨"T/A/B/f.txt", false⟩]
      [⟨"g2", some Scope.folders, none, false, [Rule.pref "new_"]⟩]).fmap =
      [("T/A/", "T/new_A/"), ("T/A/B/", "T/A/new_B/")] ∧
    (renameRun [⟨"T/A/", true⟩, ⟨"T/A/B/", true⟩, ⟨"T/A/B/f.txt", false⟩]
      [⟨"g2", some Scope.folders, none, false, [Rule.pref "new_"]⟩]).output =
      [("T/A/", "T/new_A/"), ("T/A/B/", "T/A/new_B/"),
        ("T/A/B/f.txt", "T/new_A/B/f.txt")] ∧
    sStarts "T/A/B/f.txt" "T/A/" = true ∧
    sStarts "T/A/B/f.txt" "T/A/B/" = true ∧
    sLen "T/A/" < sLen "T/A/B/" ∧
    ("T/new_A/B/f.txt" : String) ≠ "T/A/new_B/f.txt" :=
  ⟨by decide, by decide, by decide, by decide, by decide, by decide⟩

/-- **C3** (counterexample).  `rename(E, [])` is not the identity: a path
with a `..` segment has that segment dropped by the safe-directory
rebuild, so `"../a.txt"` becomes `"a.txt"`. -/
theorem c3_counterexample :
    (renameRun [⟨"../a.txt", false⟩] []).output = [("../a.txt", "a.txt")] ∧
    ("a.txt" : String) ≠ "../a.txt" :=
  ⟨by decide, by decide⟩

/-! ## Claim C6: one shared counter per group id -/

theorem foldGroups_range (transform : String → Nat → List Rule → String)
    (nn : String) (isDir : Bool) (groups : List Group) :
    ∀ (counters : String → Nat) (trace : List (String × Nat))
      (working : String),
    (∀ gid, (trace.filter (fun ev => ev.1 == gid)).map (fun ev => ev.2) =
      List.range (counters gid)) →
    ∀ gid,
      ((foldGroups transform nn isDir groups counters trace working).2.1.filter
          (fun ev => ev.1 == gid)).map (fun ev => ev.2) =
        List.range
          ((foldGroups transform nn isDir groups counters trace working).1
            gid) := by
  induction groups with
  | nil =>
      intro counters trace working h gid
      simpa [foldGroups] using h gid
  | cons g gs ih =>
      intro counters trace working h gid
      rw [foldGroups]
      split_ifs with h1 h2
      · exact ih counters trace working h gid
      · refine ih _ _ _ (fun gid' => ?_) gid
        rw [List.filter_append, List.map_append]
        by_cases hg : gid' = g.id
        · subst hg
          simp [List.range_succ, h g.id]
        · have hbe : (g.id == gid') = false := by
            simp [Ne.symm hg]
          simp [hbe, h gid', Ne.symm hg, hg]
      · exact ih counters trace working h gid

theorem processDirEntry_traceInv (groups : List Group) (st : EngineState)
    (e : Entry) (h : TraceInv st) : TraceInv (processDirEntry groups st e) := by
  intro gid
  simp only [processDirEntry]
  split_ifs with h1
  · exact h gid
  · exact foldGroups_range _ _ _ _ _ _ _ h gid

theorem processFileEntry_traceInv (groups : List Group) (st : EngineState)
    (e : Entry) (h : TraceInv st) :
    TraceInv (processFileEntry groups st e) := by
  intro gid
  exact foldGroups_range _ _ _ _ _ _ _ h gid

theorem foldl_traceInv (step : EngineState → Entry → EngineState)
    (hstep : ∀ st e, TraceInv st → TraceInv (step st e)) :
    ∀ (l : List Entry) (st : EngineState), TraceInv st →
      TraceInv (l.foldl step st) := by
  intro l
  induction l with
  | nil => intro st h; exact h
  | cons e es ih => intro st h; exact ih (step st e) (hstep st e h)

theorem renameRun_traceInv (entries : List Entry) (groups : List Group) :
    TraceInv (renameRun entries groups) := by
  have h0 : TraceInv initState := by
    intro gid
    simp [initState]
  exact foldl_traceInv _ (processFileEntry_traceInv groups) _ _
    (foldl_traceInv _ (processDirEntry_traceInv groups) _ _ h0)

/-- **C6.**  During one rename run there is exactly one counter per
rule-group id, starting at zero and shared across the directory phase and
the file phase: for every group id, the sequence of scoped indices drawn
by `groupCounters[group.id]++` over the whole run (directories first, then
files) is exactly `0, 1, …, k-1` — one continuous, monotonically
increasing sequence — where the final counter value `k` equals the number
of entries to which a group with that id was applied. -/
theorem c6_shared_counters (entries : List Entry) (groups : List Group)
    (gid : String) :
    ((renameRun entries groups).trace.filter
        (fun ev => ev.1 == gid)).map (fun ev => ev.2) =
      List.range ((renameRun entries groups).counters gid) ∧
    (renameRun entries groups).counters gid =
      ((renameRun entries groups).trace.filter
        (fun ev => ev.1 == gid)).length := by
  have hmain := renameRun_traceInv entries groups gid
  refine ⟨hmain, ?_⟩
  have hlen := congrArg List.length hmain
  simpa using hlen.symm

/-- **C7** (counterexample).  Two entries with the *identical* spelling
`"d/a.txt"` form a group with one distinct original spelling, yet the
detector reports a duplicate warning — the code counts paths with
multiplicity, not distinct spellings. -/
theorem c7_counterexample :
    detectDuplicates [⟨"d/a.txt", 0, false⟩, ⟨"d/a.txt", 0, false⟩] =
      [⟨"d", "a.txt", 2, ["d/a.txt", "d/a.txt"]⟩] ∧
    (dedupFirst ["d/a.txt", "d/a.txt"]).length = 1 :=
  ⟨by decide, by decide⟩

/-! ## Claim C1 (amended): top-level directories -/

/-- **C1** (amended).  A top-level directory entry (no parent path
segment) is processed without consulting the rule groups at all — the
counters, folder map and trace are untouched for *every* group list — and
its normalized path passes through unchanged. -/
theorem c1_top_level_dirs_unrenamed (groups : List Group)
    (st : EngineState) (e : Entry) (hd : e.isDirectory = true)
    (htop : isTopLevelDirPath e.path = true)
    (hnorm : e.path = dirStrip (normSlashes e.path) ++ "/") :
    processDirEntry groups st e =
      { counters := st.counters, fmap := st.fmap, trace := st.trace,
        output := st.output ++ [(e.path, e.path)] } := by
  simp only [processDirEntry]
  rw [if_pos
    (show (!(dirStrip (normSlashes e.path)).data.contains '/') = true from
      htop)]
  rw [← hnorm]

/-- Witness for `c1_top_level_dirs_unrenamed` at a concrete top-level
directory entry. -/
theorem c1_top_level_dirs_unrenamed_witness :
    processDirEntry
      [⟨"g1", some Scope.globalScope, none, false, [Rule.pref "x"]⟩]
      initState ⟨"Photos/", true⟩ =
      { counters := initState.counters, fmap := initState.fmap,
        trace := initState.trace,
        output := initState.output ++ [("Photos/", "Photos/")] } :=
  c1_top_level_dirs_unrenamed _ _ _ (by decide) (by decide) (by decide)

/-! ## Claim C2 (amended): first-registered mapping wins -/

/-- **C2** (amended).  The phase-2 folder-map substitution applies the
*first-registered* mapping whose old path prefix-matches (one
substitution, then stop); in particular with two recorded mappings that
both prefix-match, the first-registered one is applied regardless of
length. -/
theorem c2_first_mapping_wins (m : List (String × String)) (nn : String) :
    applyFolderMap m nn =
      (match m.find? (fun q => sStarts nn q.1) with
        | none => nn
        | some q => q.2 ++ sDrop nn (sLen q.1)) ∧
    (∀ (o1 n1 o2 n2 : String), sStarts nn o1 = true →
      applyFolderMap [(o1, n1), (o2, n2)] nn =
        n1 ++ sDrop nn (sLen o1)) := by
  constructor
  · induction m with
    | nil => simp [applyFolderMap]
    | cons q rest ih =>
        by_cases hq : sStarts nn q.1 = true
        · simp [applyFolderMap, hq]
        · simp only [Bool.not_eq_true] at hq
          simp [applyFolderMap, hq, ih]
  · intro o1 n1 o2 n2 h
    simp [applyFolderMap, h]

/-- Witness for `c2_first_mapping_wins` at the concrete nested-folder
mappings (the first-registered, shorter mapping is substituted). -/
theorem c2_first_mapping_wins_witness :
    applyFolderMap [("T/A/", "T/new_A/"), ("T/A/B/", "T/A/new_B/")]
      "T/A/B/f.txt" = "T/new_A/" ++ sDrop "T/A/B/f.txt" (sLen "T/A/") :=
  (c2_first_mapping_wins [("T/A/", "T/new_A/"), ("T/A/B/", "T/A/new_B/")]
    "T/A/B/f.txt").2 "T/A/" "T/new_A/" "T/A/B/" "T/A/new_B/" (by decide)

/-! ## Claim C9: severity priority and the case-sensitivity example -/

/-- **C9.**  Severity is computed by strict first-match priority: any
conflict gives `critical`; otherwise more than 5 path-length or more than
5 invalid-character warnings give `high`; otherwise any duplicate or
unicode warning gives `medium`; otherwise any system-file warning gives
`low`.  And on `[{path:"File.txt"},{path:"file.txt"}]` the analyzer
produces exactly one `case_sensitivity` conflict with
`conflictingFiles = ["File.txt","file.txt"]` and
`resultName = "file.txt"`, and overall severity `critical`. -/
theorem c9_severity_priority :
    (∀ w : Warnings,
      (calculateSeverity w = Severity.critical ↔ w.renameConflicts ≠ []) ∧
      (calculateSeverity w = Severity.high ↔
        (w.renameConflicts = [] ∧
          (5 < w.pathTooLong.length ∨ 5 < w.invalidChars.length))) ∧
      (calculateSeverity w = Severity.medium ↔
        (w.renameConflicts = [] ∧ w.pathTooLong.length ≤ 5 ∧
          w.invalidChars.length ≤ 5 ∧
          (w.duplicateNames ≠ [] ∨ w.unicodeIssues ≠ []))) ∧
      (calculateSeverity w = Severity.low ↔
        (w.renameConflicts = [] ∧ w.pathTooLong.length ≤ 5 ∧
          w.invalidChars.length ≤ 5 ∧ w.duplicateNames = [] ∧
          w.unicodeIssues = [] ∧ w.systemFiles ≠ []))) ∧
    simulateRenameConflicts
      [⟨"File.txt", 0, false⟩, ⟨"file.txt", 0, false⟩] =
      [⟨".", ["File.txt", "file.txt"], "file.txt", 2,
        "case_sensitivity"⟩] ∧
    calculateSeverity (buildWarnings id id
      [⟨"File.txt", 0, false⟩, ⟨"file.txt", 0, false⟩]) =
      Severity.critical := by
  refine ⟨fun w => ?_, by decide, by decide⟩
  unfold calculateSeverity
  split_ifs with h1 h2 h3 h4 <;>
    refine ⟨?_, ?_, ?_, ?_⟩ <;>
    simp_all [List.length_pos, not_or, Nat.not_lt] <;>
    (intros
     first
       | (rcases h2 with h | h <;> exfalso <;> omega)
       | (rcases h3 with h | h <;> simp_all))

/-! ## Claim C7 (amended): duplicate grouping and reporting -/

theorem length_filterMap_if {α β : Type} (p : α → Prop) [DecidablePred p]
    (g : α → β) (l : List α) :
    (l.filterMap (fun x => if p x then some (g x) else none)).length =
      (l.filter (fun x => decide (p x))).length := by
  induction l with
  | nil => rfl
  | cons x xs ih =>
      by_cases h : p x <;> simp [h, ih]

theorem lookupGroup_cons (k0 : String) (vs : List String)
    (rest : List (String × List String)) (k' : String) :
    lookupGroup ((k0, vs) :: rest) k' =
      if k0 = k' then vs else lookupGroup rest k' := by
  simp only [lookupGroup, List.find?]
  by_cases h : k0 = k'
  · simp [h]
  · simp [beq_eq_false_iff_ne.mpr h, h]

theorem lookupGroup_mapPush (m : List (String × List String))
    (k v k' : String) :
    lookupGroup (mapPush m k v) k' =
      if k' = k then lookupGroup m k' ++ [v] else lookupGroup m k' := by
  induction m with
  | nil =>
      simp only [mapPush]
      rw [lookupGroup_cons]
      by_cases h : k' = k
      · simp [h, lookupGroup]
      · rw [if_neg (fun hh => h hh.symm), if_neg h]
  | cons kv rest ih =>
      obtain ⟨k0, vs⟩ := kv
      simp only [mapPush]
      by_cases h0 : k0 = k
      · rw [if_pos h0, lookupGroup_cons, lookupGroup_cons]
        by_cases h : k0 = k'
        · have hk : k' = k := h.symm.trans h0
          rw [if_pos h, if_pos hk, if_pos h]
        · have hk : ¬k' = k := fun hh => h (h0.trans hh.symm)
          rw [if_neg h, if_neg hk, if_neg h]
      · rw [if_neg h0, lookupGroup_cons, lookupGroup_cons]
        by_cases h : k0 = k'
        · have hk : ¬k' = k := fun hh => h0 (h.trans hh)
          rw [if_pos h, if_neg hk, if_pos h]
        · rw [if_neg h, ih]
          by_cases hk : k' = k
          · rw [if_pos hk, if_pos hk, if_neg h]
          · rw [if_neg hk, if_neg hk, if_neg h]

theorem dupGroups_lookup (files : List AEntry) (k : String) :
    lookupGroup (dupGroups files) k =
      (files.filter (fun f => !f.isDirectory && (dupKey f == k))).map
        (fun f => f.originalName) := by
  suffices h : ∀ (fs : List AEntry) (m : List (String × List String)),
      lookupGroup (fs.foldl
        (fun m f =>
          if f.isDirectory then m else mapPush m (dupKey f) f.originalName)
        m) k =
      lookupGroup m k ++
        ((fs.filter (fun f => !f.isDirectory && (dupKey f == k))).map
          (fun f => f.originalName)) by
    simpa [dupGroups, lookupGroup] using h files []
  intro fs
  induction fs with
  | nil => intro m; simp
  | cons f fs ih =>
      intro m
      rw [List.foldl_cons]
      by_cases hd : f.isDirectory
      · simp [hd, ih]
      · rw [if_neg hd, ih (mapPush m (dupKey f) f.originalName),
          lookupGroup_mapPush]
        by_cases hk : dupKey f = k
        · rw [if_pos hk.symm]
          have hfil : (!f.isDirectory && (dupKey f == k)) = true := by
            simp [hd, hk]
          simp [List.filter_cons, hfil, List.append_assoc]
        · rw [if_neg (fun hh => hk hh.symm)]
          have hfil : (!f.isDirectory && (dupKey f == k)) = false := by
            simp [hk]
          simp [List.filter_cons, hfil]

/-! ## Claim C3 (amended): identity on normalized entries -/

theorem map_noop (f : Char → Char) :
    ∀ l : List Char, (∀ c ∈ l, f c = c) → l.map f = l := by
  intro l h
  induction l with
  | nil => rfl
  | cons c cs ih =>
      rw [List.map_cons, h c (by simp), ih (fun d hd => h d (by simp [hd]))]

theorem normSlashes_eq_self (p : String) (h : noBackslash p = true) :
    normSlashes p = p := by
  have h' : ∀ c ∈ p.data, (fun c => if c = '\\' then '/' else c) c = c := by
    intro c hc
    have hb := List.all_eq_true.mp h c hc
    simp only [decide_eq_true_eq] at hb
    exact if_neg hb
  show String.mk (p.data.map fun c => if c = '\\' then '/' else c) = p
  rw [map_noop _ _ h']

theorem dirStrip_good (p : String) (h : sEnds p "/" = true) :
    dirStrip p ++ "/" = p := by
  rw [dirStrip, if_pos h]
  obtain ⟨r, hr⟩ : ∃ r, p.data.reverse = '/' :: r := by
    cases hrev : p.data.reverse with
    | nil =>
        unfold sEnds at h
        rw [show ("/" : String).data.reverse = ['/'] from rfl, hrev] at h
        simp [lStarts] at h
    | cons c r =>
        unfold sEnds at h
        rw [show ("/" : String).data.reverse = ['/'] from rfl, hrev] at h
        have hc : c = '/' := by simpa [lStarts] using h
        exact ⟨r, by rw [hc]⟩
  have hp : p.data = r.reverse ++ ['/'] := by
    have h2 := congrArg List.reverse hr
    simpa using h2
  calc sDropRight p 1 ++ "/"
      = String.mk (p.data.take (p.data.length - 1) ++ ['/']) := rfl
    _ = String.mk (r.reverse ++ ['/']) := by
        rw [hp]
        have hl : (r.reverse ++ ['/']).length - 1 = r.reverse.length := by
          simp
        rw [hl, List.take_left]
    _ = p := by rw [← hp]

theorem take_reverse_takeWhile (l : List Char) (q : Char → Bool) :
    l.take (l.length - ((l.reverse.takeWhile q).reverse).length) ++
      (l.reverse.takeWhile q).reverse = l := by
  set a := (l.reverse.dropWhile q).reverse with ha
  set b := (l.reverse.takeWhile q).reverse with hb
  have hsplit : l = a ++ b := by
    rw [ha, hb, ← List.reverse_append, List.takeWhile_append_dropWhile,
      List.reverse_reverse]
  rw [hsplit, List.length_append,
    show a.length + b.length - b.length = a.length from by omega,
    List.take_left]

theorem splitSl_cons_eq (c : Char) (cs t : List Char)
    (rest : List (List Char)) (hsp : splitSl cs = t :: rest) :
    splitSl (c :: cs) =
      if c = '/' then [] :: t :: rest else (c :: t) :: rest := by
  simp only [splitSl, hsp]

theorem splitSl_ne_nil (l : List Char) : splitSl l ≠ [] := by
  cases l with
  | nil => simp [splitSl]
  | cons c cs =>
      simp only [splitSl]
      cases hs : splitSl cs with
      | nil => simp
      | cons s rest => split_ifs <;> simp

theorem mem_splitSl_no_slash (l : List Char) : ∀ s ∈ splitSl l, '/' ∉ s := by
  induction l with
  | nil =>
      intro s hs
      simp only [splitSl, List.mem_singleton] at hs
      subst hs
      simp
  | cons c cs ih =>
      intro s hs
      cases hsp : splitSl cs with
      | nil => exact absurd hsp (splitSl_ne_nil cs)
      | cons t rest =>
          rw [splitSl_cons_eq c cs t rest hsp] at hs
          by_cases hc : c = '/'
          · rw [if_pos hc] at hs
            rcases List.mem_cons.mp hs with h1 | h2
            · subst h1; simp
            · exact ih s (by rw [hsp]; exact h2)
          · rw [if_neg hc] at hs
            rcases List.mem_cons.mp hs with h1 | h2
            · subst h1
              intro hmem
              rcases List.mem_cons.mp hmem with h3 | h4
              · exact hc h3.symm
              · exact ih t (by rw [hsp]; simp) h4
            · exact ih s (by rw [hsp]; simp [h2])

theorem joinSl_splitSl (l : List Char) : joinSl (splitSl l) = l := by
  induction l with
  | nil => rfl
  | cons c cs ih =>
      cases hsp : splitSl cs with
      | nil => exact absurd hsp (splitSl_ne_nil cs)
      | cons t rest =>
          rw [splitSl_cons_eq c cs t rest hsp]
          rw [hsp] at ih
          by_cases hc : c = '/'
          · rw [if_pos hc]
            subst hc
            show '/' :: joinSl (t :: rest) = '/' :: cs
            rw [ih]
          · rw [if_neg hc]
            cases rest with
            | nil =>
                show c :: t = c :: cs
                rw [show joinSl [t] = t from rfl] at ih
                rw [ih]
            | cons u rest' =>
                show c :: (t ++ '/' :: joinSl (u :: rest')) = c :: cs
                exact congrArg (c :: ·) ih

theorem splitSl_no_slash (b : List Char) (h : '/' ∉ b) : splitSl b = [b] := by
  induction b with
  | nil => rfl
  | cons c cs ih =>
      have hc : c ≠ '/' := fun hh => h (hh ▸ List.mem_cons_self c cs)
      simp only [splitSl, ih (fun hm => h (List.mem_cons_of_mem c hm))]
      rw [if_neg hc]

theorem splitSl_cons_slash (cs : List Char) :
    splitSl ('/' :: cs) = [] :: splitSl cs := by
  cases hs : splitSl cs with
  | nil => exact absurd hs (splitSl_ne_nil cs)
  | cons t rest => rw [splitSl_cons_eq '/' cs t rest hs, if_pos rfl]

theorem splitSl_append_last (d b : List Char) (h : '/' ∉ b) :
    splitSl (d ++ '/' :: b) = splitSl d ++ [b] := by
  induction d with
  | nil =>
      rw [List.nil_append, splitSl_cons_slash, splitSl_no_slash b h]
      rfl
  | cons c cs ih =>
      rw [List.cons_append]
      cases hs : splitSl cs with
      | nil => exact absurd hs (splitSl_ne_nil cs)
      | cons t rest =>
          have htail : splitSl (cs ++ '/' :: b) = t :: (rest ++ [b]) := by
            rw [ih, hs]
            rfl
          rw [splitSl_cons_eq c (cs ++ '/' :: b) t (rest ++ [b]) htail,
            splitSl_cons_eq c cs t rest hs]
          by_cases hc : c = '/' <;> simp [hc]

theorem takeWhile_append_stop (q : Char → Bool) (a : List Char) (x : Char)
    (y : List Char) (ha : ∀ c ∈ a, q c = true) (hx : q x = false) :
    (a ++ x :: y).takeWhile q = a ∧ (a ++ x :: y).dropWhile q = x :: y := by
  induction a with
  | nil => simp [List.takeWhile_cons, List.dropWhile_cons, hx]
  | cons c cs ih =>
      have hc := ha c (by simp)
      have ihh := ih (fun d hd => ha d (by simp [hd]))
      simp [List.takeWhile_cons, List.dropWhile_cons, hc, ihh.1, ihh.2]

theorem dropWhile_all (q : Char → Bool) (l : List Char)
    (h : ∀ c ∈ l, q c = true) : l.dropWhile q = [] := by
  induction l with
  | nil => rfl
  | cons c cs ih =>
      simp [List.dropWhile_cons, h c (by simp),
        ih (fun d hd => h d (by simp [hd]))]

theorem takeWhile_all (q : Char → Bool) (l : List Char)
    (h : ∀ c ∈ l, q c = true) : l.takeWhile q = l := by
  induction l with
  | nil => rfl
  | cons c cs ih =>
      simp [List.takeWhile_cons, h c (by simp),
        ih (fun d hd => h d (by simp [hd]))]

theorem dropWhile_noop (q : Char → Bool) (l : List Char)
    (h : ∀ c ∈ l, q c = false) : l.dropWhile q = l := by
  cases l with
  | nil => rfl
  | cons c cs => simp [List.dropWhile_cons, h c (by simp)]

theorem exists_first_slash (r : List Char) (h : '/' ∈ r) :
    ∃ b' r', r = b' ++ '/' :: r' ∧ '/' ∉ b' := by
  induction r with
  | nil => simp at h
  | cons c cs ih =>
      by_cases hc : c = '/'
      · exact ⟨[], cs, by rw [hc]; rfl, by simp⟩
      · have hmem : '/' ∈ cs := by
          rcases List.mem_cons.mp h with h1 | h2
          · exact absurd h1.symm hc
          · exact h2
        obtain ⟨b', r', hEq, hnot⟩ := ih hmem
        refine ⟨c :: b', r', by rw [List.cons_append, hEq], ?_⟩
        intro hm
        rcases List.mem_cons.mp hm with h1 | h2
        · exact hc h1.symm
        · exact hnot h2

theorem exists_last_slash (l : List Char) (h : '/' ∈ l) :
    ∃ d b, l = d ++ '/' :: b ∧ '/' ∉ b := by
  have hr : '/' ∈ l.reverse := by simpa using h
  obtain ⟨b', r', hEq, hnot⟩ := exists_first_slash l.reverse hr
  refine ⟨r'.reverse, b'.reverse, ?_, by simpa using hnot⟩
  have h2 := congrArg List.reverse hEq
  rw [List.reverse_reverse] at h2
  rw [h2, List.reverse_append]
  simp

theorem applyFolderMap_id (m : List (String × String)) (nn : String)
    (h : ∀ q ∈ m, q.1 = q.2) : applyFolderMap m nn = nn := by
  induction m with
  | nil => rfl
  | cons q rest ih =>
      obtain ⟨o, n⟩ := q
      have ho : o = n := h (o, n) (by simp)
      rw [applyFolderMap]
      by_cases hs : sStarts nn o = true
      · rw [if_pos hs, ← ho]
        calc o ++ sDrop nn (sLen o)
            = String.mk (o.data ++ nn.data.drop o.data.length) := rfl
          _ = String.mk nn.data :=
              congrArg String.mk (lStarts_append_drop nn.data o.data hs)
          _ = nn := rfl
      · rw [if_neg hs]
        exact ih (fun q hq => h q (by simp [hq]))

theorem goodSeg_parts (s : List Char) (h : goodSeg s = true) :
    s ≠ [] ∧ s ≠ ['.'] ∧ s ≠ ['.', '.'] := by
  simp only [goodSeg, Bool.and_eq_true, Bool.not_eq_true',
    decide_eq_false_iff_not] at h
  exact ⟨h.1.1, h.1.2, h.2⟩

theorem goodFilePath_parts (p : String) (h : goodFilePath p = true) :
    noBackslash p = true ∧ ∀ s ∈ splitSl p.data, goodSeg s = true := by
  rw [goodFilePath, Bool.and_eq_true] at h
  exact ⟨h.1, List.all_eq_true.mp h.2⟩

theorem rev_dropSlash_eq (p : String) (hns : '/' ∉ p.data) :
    p.data.reverse.dropWhile (fun c => c = '/') = p.data.reverse := by
  apply dropWhile_noop
  intro c hc
  have hm : c ∈ p.data := by simpa using hc
  have hcne : c ≠ '/' := fun hh => hns (hh ▸ hm)
  simp [hcne]

theorem jsDirname_no_slash (p : String) (hne : p.data ≠ [])
    (hns : '/' ∉ p.data) : jsDirname p = "." := by
  simp only [jsDirname]
  rw [if_neg hne, rev_dropSlash_eq p hns]
  have hd2 : p.data.reverse.dropWhile (fun c => c ≠ '/') = [] := by
    apply dropWhile_all
    intro c hc
    have hm : c ∈ p.data := by simpa using hc
    have hcne : c ≠ '/' := fun hh => hns (hh ▸ hm)
    simp [hcne]
  rw [hd2, if_pos (by simp)]
  have hroot : sStarts p "/" = false := by
    cases hpd : p.data with
    | nil => exact absurd hpd hne
    | cons c cs =>
        have hc : c ≠ '/' := fun hh =>
          hns (by rw [hpd]; exact hh ▸ List.mem_cons_self c cs)
        unfold sStarts
        rw [hpd, show ("/" : String).data = ['/'] from rfl]
        simp [lStarts, hc]
  rw [if_neg (by simp [hroot])]

theorem jsBasename_no_slash (p : String) (hne : p.data ≠ [])
    (hns : '/' ∉ p.data) : jsBasename p = p := by
  simp only [jsBasename]
  rw [rev_dropSlash_eq p hns]
  have ht : p.data.reverse.takeWhile (fun c => c ≠ '/') = p.data.reverse := by
    apply takeWhile_all
    intro c hc
    have hm : c ∈ p.data := by simpa using hc
    have hcne : c ≠ '/' := fun hh => hns (hh ▸ hm)
    simp [hcne]
  rw [ht, List.reverse_reverse]

theorem rev_split (d b : List Char) (p : String)
    (hEq : p.data = d ++ '/' :: b) :
    p.data.reverse = b.reverse ++ '/' :: d.reverse := by
  rw [hEq]
  simp

theorem rev_split_dropSlash (d b : List Char) (p : String)
    (hEq : p.data = d ++ '/' :: b) (hb : '/' ∉ b) (hbne : b ≠ []) :
    p.data.reverse.dropWhile (fun c => c = '/') =
      b.reverse ++ '/' :: d.reverse := by
  rw [rev_split d b p hEq]
  obtain ⟨x, xs, hx⟩ :=
    List.exists_cons_of_ne_nil (by simpa using hbne : b.reverse ≠ [])
  have hxmem : x ∈ b := by
    have : x ∈ b.reverse := by rw [hx]; simp
    simpa using this
  have hxne : x ≠ '/' := fun hh => hb (hh ▸ hxmem)
  rw [hx, List.cons_append, List.dropWhile_cons,
    if_neg (by simp [hxne] : ¬(decide (x = '/') = true))]

theorem jsBasename_split (d b : List Char) (p : String)
    (hEq : p.data = d ++ '/' :: b) (hb : '/' ∉ b) (hbne : b ≠ []) :
    jsBasename p = String.mk b := by
  simp only [jsBasename]
  rw [rev_split_dropSlash d b p hEq hb hbne]
  have ha : ∀ c ∈ b.reverse, ((fun c => decide (c ≠ '/')) c) = true := by
    intro c hc
    have hm : c ∈ b := by simpa using hc
    have hcne : c ≠ '/' := fun hh => hb (hh ▸ hm)
    simp [hcne]
  rw [(takeWhile_append_stop (fun c => decide (c ≠ '/')) b.reverse '/'
    d.reverse ha (by simp)).1, List.reverse_reverse]

theorem jsDirname_split (d b : List Char) (p : String)
    (hEq : p.data = d ++ '/' :: b) (hb : '/' ∉ b) (hbne : b ≠ [])
    (hdne : d ≠ []) (hroot : sStarts p "/" = false) :
    jsDirname p = String.mk d := by
  simp only [jsDirname]
  rw [if_neg (by rw [hEq]; simp), rev_split_dropSlash d b p hEq hb hbne]
  have ha : ∀ c ∈ b.reverse, ((fun c => decide (c ≠ '/')) c) = true := by
    intro c hc
    have hm : c ∈ b := by simpa using hc
    have hcne : c ≠ '/' := fun hh => hb (hh ▸ hm)
    simp [hcne]
  rw [(takeWhile_append_stop (fun c => decide (c ≠ '/')) b.reverse '/'
    d.reverse ha (by simp)).2]
  have hlen : ('/' :: d.reverse).length = d.length + 1 := by simp
  have hd1 : 1 ≤ d.length := List.length_pos.mpr hdne
  rw [if_neg (by rw [hlen]; omega)]
  rw [if_neg (by simp [hroot])]
  rw [show ('/' :: d.reverse).tail = d.reverse from rfl, List.reverse_reverse]

theorem rebuild_good (p : String) (h : goodFilePath p = true) :
    rebuildPath (jsDirname p) (jsBasename p) = p := by
  obtain ⟨hnb, hsegs⟩ := goodFilePath_parts p h
  have hne : p.data ≠ [] := by
    intro h0
    have hgs := hsegs [] (by rw [h0]; simp [splitSl])
    simp [goodSeg] at hgs
  by_cases hsl : '/' ∈ p.data
  · obtain ⟨d, b, hEq, hb⟩ := exists_last_slash p.data hsl
    have hsp : splitSl p.data = splitSl d ++ [b] := by
      rw [hEq]
      exact splitSl_append_last d b hb
    have hbgood := hsegs b (by rw [hsp]; simp)
    have hbne : b ≠ [] := (goodSeg_parts b hbgood).1
    have hdsegs : ∀ s ∈ splitSl d, goodSeg s = true := by
      intro s hs
      exact hsegs s (by rw [hsp]; simp [hs])
    have hdne : d ≠ [] := by
      intro h0
      have hgs := hdsegs [] (by rw [h0]; simp [splitSl])
      simp [goodSeg] at hgs
    have hroot : sStarts p "/" = false := by
      cases hd : d with
      | nil => exact absurd hd hdne
      | cons c0 d' =>
          have hc0 : c0 ≠ '/' := by
            intro hh
            subst hh
            have hgs := hdsegs [] (by rw [hd, splitSl_cons_slash]; simp)
            simp [goodSeg] at hgs
          unfold sStarts
          rw [hEq, hd, show ("/" : String).data = ['/'] from rfl]
          simp [lStarts, hc0]
    rw [jsDirname_split d b p hEq hb hbne hdne hroot,
      jsBasename_split d b p hEq hb hbne]
    have hsafe : safeDirOf (String.mk d) = String.mk d := by
      simp only [safeDirOf]
      have hfil : (splitSl d).filter
          (fun q => !(q = []) && !(q = ['.', '.']) && !(q = ['.'])) =
          splitSl d := by
        apply List.filter_eq_self.mpr
        intro s hs
        have hgs := goodSeg_parts s (hdsegs s hs)
        simp [hgs.1, hgs.2.1, hgs.2.2]
      rw [hfil, joinSl_splitSl]
      rw [if_neg ?hdot]
      case hdot =>
        intro hh
        have hd' : d = ['.'] := congrArg String.data hh
        have hgs := hdsegs ['.']
          (by rw [hd', splitSl_no_slash ['.'] (by simp)]; simp)
        simp [goodSeg] at hgs
    simp only [rebuildPath]
    rw [hsafe]
    rw [if_pos (show String.mk d ≠ "" from
      fun hh => hdne (congrArg String.data hh))]
    have hcat : String.mk d ++ "/" ++ String.mk b = p := by
      calc String.mk d ++ "/" ++ String.mk b
          = String.mk ((d ++ ['/']) ++ b) := rfl
        _ = String.mk (d ++ '/' :: b) := congrArg String.mk (by simp)
        _ = p := by rw [← hEq]
    rw [hcat]
    exact normSlashes_eq_self p hnb
  · rw [jsDirname_no_slash p hne hsl, jsBasename_no_slash p hne hsl]
    simp only [rebuildPath]
    rw [show safeDirOf "." = "" from by decide]
    rw [if_neg (by simp)]
    exact normSlashes_eq_self p hnb

theorem mapSet_id_pairs (m : List (String × String)) (k : String)
    (h : ∀ q ∈ m, q.1 = q.2) : ∀ q ∈ mapSet m k k, q.1 = q.2 := by
  induction m with
  | nil =>
      intro q hq
      simp only [mapSet, List.mem_singleton] at hq
      subst hq
      rfl
  | cons kv rest ih =>
      intro q hq
      obtain ⟨k0, v0⟩ := kv
      simp only [mapSet] at hq
      by_cases h0 : k0 = k
      · rw [if_pos h0] at hq
        rcases List.mem_cons.mp hq with h1 | h2
        · subst h1; rfl
        · exact h q (by simp [h2])
      · rw [if_neg h0] at hq
        rcases List.mem_cons.mp hq with h1 | h2
        · subst h1
          exact h (k0, v0) (by simp)
        · exact ih (fun q' hq' => h q' (by simp [hq'])) q h2

theorem processFileEntry_empty (st : EngineState) (e : Entry) :
    processFileEntry [] st e =
      { st with output := st.output ++
        [(e.path,
          rebuildPath
            (jsDirname (applyFolderMap st.fmap (normSlashes e.path)))
            (jsBasename (applyFolderMap st.fmap (normSlashes e.path))))] } :=
  rfl

theorem processDirEntry_empty (st : EngineState) (e : Entry) :
    processDirEntry [] st e =
      if isTopLevelDirPath e.path = true then
        { st with output := st.output ++
          [(e.path, dirStrip (normSlashes e.path) ++ "/")] }
      else
        { counters := st.counters,
          fmap := mapSet st.fmap (dirStrip (normSlashes e.path) ++ "/")
            (dirStrip (normSlashes e.path) ++ "/"),
          trace := st.trace,
          output := st.output ++
            [(e.path, dirStrip (normSlashes e.path) ++ "/")] } := by
  simp only [processDirEntry, foldGroups]
  rw [show (!(dirStrip (normSlashes e.path)).data.contains '/') =
    isTopLevelDirPath e.path from rfl]
  have hpf : sDropRight (dirStrip (normSlashes e.path))
      (sLen (String.mk (((dirStrip
        (normSlashes e.path)).data.reverse.takeWhile
          (fun c => c ≠ '/')).reverse))) ++
      String.mk (((dirStrip (normSlashes e.path)).data.reverse.takeWhile
        (fun c => c ≠ '/')).reverse) = dirStrip (normSlashes e.path) :=
    congrArg String.mk
      (take_reverse_takeWhile (dirStrip (normSlashes e.path)).data
        (fun c => decide (c ≠ '/')))
  split_ifs with h
  · rfl
  · rw [hpf]

theorem phase1_fold (l : List Entry) :
    ∀ st : EngineState,
    (∀ e ∈ l, (noBackslash e.path && sEnds e.path "/") = true) →
    (∀ q ∈ st.fmap, q.1 = q.2) → (∀ pr ∈ st.output, pr.2 = pr.1) →
    (∀ q ∈ (l.foldl (processDirEntry []) st).fmap, q.1 = q.2) ∧
    (∀ pr ∈ (l.foldl (processDirEntry []) st).output, pr.2 = pr.1) := by
  induction l with
  | nil => intro st _ h1 h2; exact ⟨h1, h2⟩
  | cons e es ih =>
      intro st hl h1 h2
      rw [List.foldl_cons]
      have hgood : noBackslash e.path = true ∧ sEnds e.path "/" = true := by
        simpa using hl e (by simp)
      have hid : dirStrip (normSlashes e.path) ++ "/" = e.path := by
        rw [normSlashes_eq_self e.path hgood.1]
        exact dirStrip_good e.path hgood.2
      refine ih (processDirEntry [] st e)
        (fun e' he' => hl e' (by simp [he'])) ?_ ?_
      · rw [processDirEntry_empty]
        split_ifs with h
        · exact h1
        · exact mapSet_id_pairs st.fmap _ h1
      · rw [processDirEntry_empty]
        split_ifs with h <;>
        · intro pr hpr
          rcases List.mem_append.mp hpr with hp | hp
          · exact h2 pr hp
          · rw [List.mem_singleton] at hp
            subst hp
            exact hid

theorem phase2_fold (l : List Entry) :
    ∀ st : EngineState,
    (∀ e ∈ l, goodFilePath e.path = true) →
    (∀ q ∈ st.fmap, q.1 = q.2) → (∀ pr ∈ st.output, pr.2 = pr.1) →
    ∀ pr ∈ (l.foldl (processFileEntry []) st).output, pr.2 = pr.1 := by
  induction l with
  | nil => intro st _ _ h2; exact h2
  | cons e es ih =>
      intro st hl h1 h2
      rw [List.foldl_cons]
      refine ih (processFileEntry [] st e)
        (fun e' he' => hl e' (by simp [he'])) h1 ?_
      rw [processFileEntry_empty]
      intro pr hpr
      rcases List.mem_append.mp hpr with hp | hp
      · exact h2 pr hp
      · rw [List.mem_singleton] at hp
        subst hp
        show rebuildPath _ _ = e.path
        have hg := hl e (by simp)
        have hnb := (goodFilePath_parts e.path hg).1
        rw [normSlashes_eq_self e.path hnb,
          applyFolderMap_id st.fmap e.path h1]
        exact rebuild_good e.path hg

/-- **C3** (amended).  With an empty rule-group list the rename engine is
the identity on normalized entries: backslash-free directory paths with a
trailing slash, and backslash-free file paths all of whose slash-separated
segments are nonempty and neither `.` nor `..`.  Every output pair then
has `finalPath = originalPath`. -/
theorem c3_empty_rules_identity (entries : List Entry)
    (h : ∀ e ∈ entries, goodEntry e = true) :
    ∀ pr ∈ (renameRun entries []).output, pr.2 = pr.1 := by
  have hdirs : ∀ e ∈ entries.filter (fun e => e.isDirectory),
      (noBackslash e.path && sEnds e.path "/") = true := by
    intro e he
    have hm := List.mem_filter.mp he
    have hg := h e hm.1
    rw [goodEntry, if_pos hm.2] at hg
    exact hg
  have hfiles : ∀ e ∈ entries.filter (fun e => !e.isDirectory),
      goodFilePath e.path = true := by
    intro e he
    have hm := List.mem_filter.mp he
    have hg := h e hm.1
    have hnd : e.isDirectory = false := by simpa using hm.2
    rw [goodEntry, if_neg (by simp [hnd])] at hg
    exact hg
  have h1 := phase1_fold (entries.filter (fun e => e.isDirectory)) initState
    hdirs (by simp [initState]) (by simp [initState])
  exact phase2_fold (entries.filter (fun e => !e.isDirectory)) _ hfiles
    h1.1 h1.2

/-- Witness for `c3_empty_rules_identity`: the engine with no rules leaves
a normalized directory-plus-file listing unchanged. -/
theorem c3_empty_rules_identity_witness :
    ((renameRun [⟨"Photos/", true⟩, ⟨"Photos/img.jpg", false⟩] []).output.all
      (fun pr => pr.2 == pr.1)) = true := by
  rw [List.all_eq_true]
  intro pr hpr
  rw [beq_iff_eq]
  exact c3_empty_rules_identity _ (by decide) pr hpr

/-- **C7** (amended).  The duplicate detector groups file entries by
(parent directory, case-folded base name) — the `dupKey` — and reports
exactly one warning per group with more than one collected path (counted
with multiplicity); each warning has the group's multiplicity as `count`
and carries the first `min count 10` original paths. -/
theorem c7_duplicates_amended (files : List AEntry) :
    (∀ k, lookupGroup (dupGroups files) k =
      (files.filter (fun f => !f.isDirectory && (dupKey f == k))).map
        (fun f => f.originalName)) ∧
    (detectDuplicates files).length =
      ((dupGroups files).filter (fun kv => 1 < kv.2.length)).length ∧
    ((detectDuplicates files).all (fun w =>
      decide (1 < w.count) && decide (w.paths.length ≤ 10) &&
        (w.paths.length == min w.count 10))) = true := by
  refine ⟨dupGroups_lookup files, ?_, ?_⟩
  · exact length_filterMap_if (fun kps => 1 < kps.2.length)
      (fun kps : String × List String =>
        ({ directory :=
            if String.mk (takeBeforeColons kps.1.data) = "" then "/"
            else String.mk (takeBeforeColons kps.1.data),
           filename := jsBasename (kps.2.headD ""),
           count := kps.2.length,
           paths := kps.2.take 10 } : DuplicateWarning))
      (dupGroups files)
  · rw [List.all_eq_true]
    intro w hw
    unfold detectDuplicates at hw
    rw [List.mem_filterMap] at hw
    obtain ⟨kv, _, hsome⟩ := hw
    by_cases h : 1 < kv.2.length
    · rw [if_pos h] at hsome
      obtain rfl := Option.some.inj hsome
      simp only [List.length_take, Bool.and_eq_true, decide_eq_true_eq,
        beq_iff_eq]
      refine ⟨⟨h, ?_⟩, ?_⟩ <;> omega
    · rw [if_neg h] at hsome
      exact absurd hsome (by simp)

end ZipRenamer
